import Mathlib

/-!
# Verification of the `too_big_float` scaled-value engine

This file is a shallow embedding of the Rust sources of the repository
(`src/bigfloat.rs`, `src/arithmetic.rs`, `src/traits.rs`, `src/convert.rs`)
together with proofs about the embedded definitions.

Modelling conventions:

* `f64` values are modelled by `F64`: either an exact rational (`fin q`) or one
  of the sentinels `inf`, `neginf`, `nan`.  Rounding, signed zero and the
  finite range of doubles are idealised away: finite double arithmetic is
  exact rational arithmetic.  `log10(x).floor()` on a positive finite double
  is modelled by the exact `flog10`.
* The repository ships two revisions of the value type.  `bigfloat.rs`
  declares `BigFloat { mantissa : f64, exponent : u128 }`; it is embedded
  below as `BigFloatU` (exponent a natural number).  `arithmetic.rs`,
  `traits.rs` and `convert.rs` are written against a later revision whose
  exponent is the enum `Exponent { Long(i64), BigFloat(Box<BigFloat>) }`;
  that revision's struct is embedded as `BigFloat` with exponent type
  `Exponent` below.  The enum revision's constructor/normalizer/from_f64 are
  not in the sources, only their callers are; those three definitions are
  modelled from the specification and marked as such.
* Rust integer types: `i64` exponents are embedded as `ℤ` together with the
  explicit bounds `i64Min`/`i64Max` at the points (`checked_add`,
  `checked_sub`, `i64::from_str`) where the width matters; `u128` exponents
  are embedded as `ℕ`.
-/

/-- Model of a Rust `f64` value: an exact rational, or one of the three
non-finite sentinels.  Signed zero is collapsed to `fin 0`. -/
inductive F64 where
  | fin (q : ℚ)
  | inf
  | neginf
  | nan
deriving DecidableEq, Repr

namespace F64

/-- Rust `f64::is_finite`. -/
def isFinite : F64 → Bool
  | fin _ => true
  | _ => false

/-- Rust `f64::is_nan`. -/
def isNan : F64 → Bool
  | nan => true
  | _ => false

/-- Rust `f64::is_infinite`. -/
def isInfinite : F64 → Bool
  | inf => true
  | neginf => true
  | _ => false

/-- Rust `self == 0.0` on an `f64` (NaN and infinities compare unequal). -/
def isZero : F64 → Bool
  | fin q => q = 0
  | _ => false

/-- Rust `self > 0.0` (false for NaN). -/
def gtZero : F64 → Bool
  | fin q => 0 < q
  | inf => true
  | _ => false

/-- Rust `self < 0.0` (false for NaN). -/
def ltZero : F64 → Bool
  | fin q => q < 0
  | neginf => true
  | _ => false

/-- Rust `self >= 0.0` (false for NaN). -/
def nonneg : F64 → Bool
  | fin q => 0 ≤ q
  | inf => true
  | _ => false

/-- Rust `f64::is_sign_positive` (sign bit check; the default NaN has a
positive sign bit, and signed zero is collapsed to `+0`). -/
def isSignPositive : F64 → Bool
  | fin q => 0 ≤ q
  | inf => true
  | neginf => false
  | nan => true

/-- Rust unary `-` on `f64` (with signed zero collapsed). -/
def neg : F64 → F64
  | fin q => fin (-q)
  | inf => neginf
  | neginf => inf
  | nan => nan

/-- Rust `+` on `f64`, idealised: finite addition is exact. -/
def add : F64 → F64 → F64
  | nan, _ => nan
  | _, nan => nan
  | fin a, fin b => fin (a + b)
  | inf, neginf => nan
  | neginf, inf => nan
  | inf, _ => inf
  | _, inf => inf
  | neginf, _ => neginf
  | _, neginf => neginf

/-- Rust `*` on `f64`, idealised: finite multiplication is exact. -/
def mul : F64 → F64 → F64
  | nan, _ => nan
  | _, nan => nan
  | fin a, fin b => fin (a * b)
  | inf, inf => inf
  | inf, neginf => neginf
  | neginf, inf => neginf
  | neginf, neginf => inf
  | inf, fin b => if 0 < b then inf else if b < 0 then neginf else nan
  | fin a, inf => if 0 < a then inf else if a < 0 then neginf else nan
  | neginf, fin b => if 0 < b then neginf else if b < 0 then inf else nan
  | fin a, neginf => if 0 < a then neginf else if a < 0 then inf else nan

/-- Rust `/` on `f64`, idealised: finite-by-finite-nonzero division is exact
(signed zero collapsed, so `x / ±∞` is `+0`). -/
def div : F64 → F64 → F64
  | nan, _ => nan
  | _, nan => nan
  | fin a, fin b =>
    if b = 0 then (if 0 < a then inf else if a < 0 then neginf else nan)
    else fin (a / b)
  | fin _, inf => fin 0
  | fin _, neginf => fin 0
  | inf, fin b => if 0 ≤ b then inf else neginf
  | neginf, fin b => if 0 ≤ b then neginf else inf
  | inf, inf => nan
  | inf, neginf => nan
  | neginf, inf => nan
  | neginf, neginf => nan

/-- Rust `f64::partial_cmp`: `None` iff an operand is NaN. -/
def partialCmp : F64 → F64 → Option Ordering
  | nan, _ => none
  | _, nan => none
  | fin a, fin b => some (if a < b then .lt else if b < a then .gt else .eq)
  | inf, inf => some .eq
  | neginf, neginf => some .eq
  | inf, _ => some .gt
  | _, inf => some .lt
  | neginf, _ => some .lt
  | _, neginf => some .gt

end F64

/-! ## Exact floor-log10 on the rationals

Models `x.log10().floor()` applied to a positive finite double.  `flog10 q`
is the unique `k : ℤ` with `10^k ≤ q < 10^(k+1)` (for `q > 0`).  The fuel
arguments only bound the recursion depth; the lemmas below show they are
always sufficient. -/

/-- `natLog10Aux fuel n` counts how often `n` can be divided by 10 before
dropping below 10; with `fuel ≥ n` it is the number of decimal digits of `n`
minus one. -/
def natLog10Aux : ℕ → ℕ → ℕ
  | 0, _ => 0
  | fuel + 1, n => if n < 10 then 0 else natLog10Aux fuel (n / 10) + 1

/-- Floor of `log10 n` for `1 ≤ n`. -/
def natLog10 (n : ℕ) : ℕ := natLog10Aux n n

/-- `qlogNegAux fuel q` is the least `m` with `1 ≤ q * 10^m`, for
`0 < q < 1` and sufficient fuel. -/
def qlogNegAux : ℕ → ℚ → ℕ
  | 0, _ => 0
  | fuel + 1, q => if 1 ≤ q then 0 else qlogNegAux fuel (q * 10) + 1

/-- Floor of `log10 q` for a positive rational `q`. -/
def flog10 (q : ℚ) : ℤ :=
  if 1 ≤ q then (natLog10 ⌊q⌋₊ : ℤ) else -(qlogNegAux q.den q : ℤ)

theorem natLog10Aux_spec (fuel : ℕ) : ∀ n : ℕ, 1 ≤ n → n ≤ fuel →
    10 ^ natLog10Aux fuel n ≤ n ∧ n < 10 ^ (natLog10Aux fuel n + 1) := by
  induction fuel with
  | zero => intro n h1 h2; omega
  | succ fuel ih =>
    intro n h1 h2
    rw [natLog10Aux]
    by_cases h10 : n < 10
    · simp only [h10, if_true]
      constructor
      · simpa using h1
      · simpa using h10
    · simp only [h10, if_false]
      have hn10 : 10 ≤ n := by omega
      have hdiv1 : 1 ≤ n / 10 := Nat.one_le_div_iff (by omega) |>.mpr hn10
      have hdivlt : n / 10 < n := Nat.div_lt_self (by omega) (by omega)
      have hdivfuel : n / 10 ≤ fuel := by omega
      obtain ⟨hlo, hhi⟩ := ih (n / 10) hdiv1 hdivfuel
      constructor
      · calc 10 ^ (natLog10Aux fuel (n / 10) + 1)
            = 10 * 10 ^ natLog10Aux fuel (n / 10) := by ring
          _ ≤ 10 * (n / 10) := by omega
          _ ≤ n := Nat.mul_div_le n 10
      · have hmod : n = 10 * (n / 10) + n % 10 := (Nat.div_add_mod n 10).symm ▸ by omega
        have hlt : n < 10 * 10 ^ (natLog10Aux fuel (n / 10) + 1) := by
          have := Nat.mod_lt n (show 0 < 10 by omega)
          omega
        calc n < 10 * 10 ^ (natLog10Aux fuel (n / 10) + 1) := hlt
          _ = 10 ^ (natLog10Aux fuel (n / 10) + 1 + 1) := by ring

theorem natLog10_spec (n : ℕ) (h1 : 1 ≤ n) :
    10 ^ natLog10 n ≤ n ∧ n < 10 ^ (natLog10 n + 1) :=
  natLog10Aux_spec n n h1 le_rfl

theorem qlogNegAux_lower (fuel : ℕ) : ∀ q : ℚ, 1 ≤ q * 10 ^ fuel →
    1 ≤ q * 10 ^ qlogNegAux fuel q := by
  induction fuel with
  | zero => intro q h; simpa [qlogNegAux] using by simpa using h
  | succ fuel ih =>
    intro q h
    rw [qlogNegAux]
    by_cases h1 : 1 ≤ q
    · simpa [h1] using h1
    · simp only [h1, if_false]
      have h' : 1 ≤ q * 10 * 10 ^ fuel := by
        have : q * 10 ^ (fuel + 1) = q * 10 * 10 ^ fuel := by ring
        rw [← this]; exact h
      have := ih (q * 10) h'
      calc (1 : ℚ) ≤ q * 10 * 10 ^ qlogNegAux fuel (q * 10) := this
        _ = q * 10 ^ (qlogNegAux fuel (q * 10) + 1) := by ring

theorem qlogNegAux_upper (fuel : ℕ) : ∀ q : ℚ, q < 1 →
    q * 10 ^ qlogNegAux fuel q < 10 := by
  induction fuel with
  | zero =>
    intro q h
    simpa [qlogNegAux] using by linarith
  | succ fuel ih =>
    intro q h
    rw [qlogNegAux]
    have h1 : ¬ (1 ≤ q) := by linarith
    simp only [h1, if_false]
    by_cases h2 : q * 10 < 1
    · have := ih (q * 10) h2
      calc q * 10 ^ (qlogNegAux fuel (q * 10) + 1)
          = q * 10 * 10 ^ qlogNegAux fuel (q * 10) := by ring
        _ < 10 := this
    · -- `q * 10 ≥ 1`, so the recursive call returns 0 at once
      have hzero : qlogNegAux fuel (q * 10) = 0 := by
        cases fuel with
        | zero => rfl
        | succ fuel => rw [qlogNegAux]; simp only [not_lt.mp h2, if_true]
      rw [hzero]
      have : q * 10 < 10 := by linarith
      simpa using this

/-- Main characterization: for positive `q`, `flog10 q` is a floor of the
base-10 logarithm. -/
theorem flog10_spec (q : ℚ) (hq : 0 < q) :
    (10 : ℚ) ^ flog10 q ≤ q ∧ q < 10 ^ (flog10 q + 1) := by
  unfold flog10
  by_cases h1 : 1 ≤ q
  · simp only [h1, if_true]
    have hfloor1 : 1 ≤ ⌊q⌋₊ := Nat.le_floor (by exact_mod_cast h1)
    obtain ⟨hlo, hhi⟩ := natLog10_spec ⌊q⌋₊ hfloor1
    constructor
    · rw [zpow_natCast]
      calc ((10 : ℚ) ^ natLog10 ⌊q⌋₊)
          ≤ (⌊q⌋₊ : ℚ) := by exact_mod_cast hlo
        _ ≤ q := Nat.floor_le (le_of_lt hq)
    · rw [show ((natLog10 ⌊q⌋₊ : ℤ) + 1) = ((natLog10 ⌊q⌋₊ + 1 : ℕ) : ℤ) by push_cast; ring,
        zpow_natCast]
      calc q < ⌊q⌋₊ + 1 := Nat.lt_floor_add_one q
        _ ≤ (10 : ℚ) ^ (natLog10 ⌊q⌋₊ + 1) := by exact_mod_cast hhi
  · simp only [h1, if_false]
    have hq1 : q < 1 := lt_of_not_le h1
    have hfuel : 1 ≤ q * 10 ^ q.den := by
      have hnum : 1 ≤ q.num := Rat.num_pos.mpr hq
      have hqden : (1 : ℚ) ≤ q * q.den := by
        have hden0 : (q.den : ℚ) ≠ 0 := by positivity
        have hrepr : (q.num : ℚ) = q * q.den :=
          (div_eq_iff hden0).mp (Rat.num_div_den q)
        calc (1 : ℚ) ≤ (q.num : ℚ) := by exact_mod_cast hnum
          _ = q * q.den := hrepr
      have hpow : (q.den : ℚ) ≤ 10 ^ q.den := by
        exact_mod_cast le_of_lt (Nat.lt_pow_self (by norm_num) q.den)
      calc (1 : ℚ) ≤ q * q.den := hqden
        _ ≤ q * 10 ^ q.den := mul_le_mul_of_nonneg_left hpow (le_of_lt hq)
    have hlo := qlogNegAux_lower q.den q hfuel
    have hhi := qlogNegAux_upper q.den q hq1
    set m := qlogNegAux q.den q with hm
    constructor
    · have hdiv : (1 : ℚ) / 10 ^ m ≤ q := by
        rw [div_le_iff₀ (by positivity)]
        linarith [hlo]
      calc (10 : ℚ) ^ (-(m : ℤ)) = 1 / 10 ^ m := by
            rw [zpow_neg, zpow_natCast]; field_simp
        _ ≤ q := hdiv
    · have h10 : (10 : ℚ) ^ ((-(m : ℤ)) + 1) = 10 / 10 ^ m := by
        rw [zpow_add₀ (by norm_num), zpow_neg, zpow_natCast, zpow_one]
        field_simp
      rw [h10, lt_div_iff₀ (by positivity)]
      linarith [hhi]

/-- `flog10` is uniquely determined by the bracketing property. -/
theorem flog10_eq_of (q : ℚ) (k : ℤ) (hq : 0 < q)
    (h1 : (10 : ℚ) ^ k ≤ q) (h2 : q < 10 ^ (k + 1)) : flog10 q = k := by
  obtain ⟨hlo, hhi⟩ := flog10_spec q hq
  by_contra hne
  rcases lt_or_gt_of_ne hne with h | h
  · have : (10 : ℚ) ^ (flog10 q + 1) ≤ 10 ^ k :=
      zpow_le_zpow_right₀ (by norm_num) (by omega)
    linarith
  · have : (10 : ℚ) ^ (k + 1) ≤ 10 ^ flog10 q :=
      zpow_le_zpow_right₀ (by norm_num) (by omega)
    linarith

/-- `flog10` of an exact power of ten. -/
theorem flog10_zpow (k : ℤ) : flog10 ((10 : ℚ) ^ k) = k :=
  flog10_eq_of _ _ (by positivity) le_rfl
    (zpow_lt_zpow_right₀ (by norm_num) (by omega))

/-- `flog10 1 = 0`. -/
theorem flog10_one : flog10 1 = 0 := by
  simpa using flog10_zpow 0

/-! ## The `u128`-exponent revision (`src/bigfloat.rs`)

`BigFloat { mantissa: f64, exponent: u128 }` with `from_f64`, `normalize`
and `new` exactly as in `src/bigfloat.rs`.  The `u128` exponent is embedded
as `ℕ`; the lossy `as i32` casts feeding `10.0_f64.powi` are idealised as
exact powers of ten. -/

structure BigFloatU where
  mantissa : F64
  exponent : ℕ
deriving DecidableEq, Repr

namespace BigFloatU

/-- `BigFloat::from_f64` (src/bigfloat.rs lines 31-64): zero and non-finite
inputs keep exponent 0; inputs with `|value| < 1` are stored unnormalized at
exponent 0; larger inputs are decomposed via `log10().floor()`. -/
def from_f64 (value : F64) : BigFloatU :=
  match value with
  | .fin q =>
    if q = 0 then ⟨.fin 0, 0⟩
    else
      let a := |q|
      if a < 1 then ⟨.fin q, 0⟩
      else
        let e := flog10 a
        let m := a / 10 ^ e
        ⟨.fin (if q < 0 then -m else m), e.toNat⟩
  | v => ⟨v, 0⟩

/-- `BigFloat::normalize` (src/bigfloat.rs lines 66-97).  At exponent 0 a
mantissa below 10 is left untouched (fractional mantissas allowed); at
nonzero exponents a mantissa below 1 is folded back into exponent 0. -/
def normalize (x : BigFloatU) : BigFloatU :=
  match x.mantissa with
  | .fin q =>
    if q = 0 then x
    else
      let a := |q|
      if x.exponent = 0 then
        if 10 ≤ a then
          let adj := (flog10 a).toNat
          ⟨.fin (q / 10 ^ adj), adj⟩
        else x
      else
        if 10 ≤ a then
          let adj := (flog10 a).toNat
          ⟨.fin (q / 10 ^ adj), x.exponent + adj⟩
        else if a < 1 then
          ⟨.fin (q * 10 ^ x.exponent), 0⟩
        else x
  | _ => x

/-- `BigFloat::new` (src/bigfloat.rs lines 8-15): build then normalize. -/
def new (mantissa : F64) (exponent : ℕ) : BigFloatU :=
  normalize ⟨mantissa, exponent⟩

end BigFloatU

theorem flog10_nonneg (q : ℚ) (h : 1 ≤ q) : 0 ≤ flog10 q := by
  unfold flog10
  simp only [h, if_true]
  exact Int.natCast_nonneg _

theorem flog10_pos (q : ℚ) (h : 10 ≤ q) : 1 ≤ flog10 q := by
  obtain ⟨hlo, hhi⟩ := flog10_spec q (by linarith)
  by_contra hc
  have hk : flog10 q + 1 ≤ 1 := by omega
  have : (10 : ℚ) ^ (flog10 q + 1) ≤ 10 ^ (1 : ℤ) :=
    zpow_le_zpow_right₀ (by norm_num) hk
  simp only [zpow_one] at this
  linarith

/-- Dividing a rational with `1 ≤ |q0|` by `10 ^ ⌊log10 |q0|⌋` lands the
absolute value in the band `[1, 10)`. -/
theorem band_after_div (q0 : ℚ) (h0 : q0 ≠ 0) (h1 : 1 ≤ |q0|) :
    1 ≤ |q0 / 10 ^ (flog10 |q0|).toNat| ∧ |q0 / 10 ^ (flog10 |q0|).toNat| < 10 := by
  have hapos : 0 < |q0| := abs_pos.mpr h0
  have hk0 : 0 ≤ flog10 |q0| := flog10_nonneg _ h1
  have hcast : ((10 : ℚ)) ^ (flog10 |q0|).toNat = (10 : ℚ) ^ flog10 |q0| := by
    rw [← zpow_natCast, Int.toNat_of_nonneg hk0]
  obtain ⟨hlo, hhi⟩ := flog10_spec |q0| hapos
  have hpow : (0 : ℚ) < 10 ^ (flog10 |q0|).toNat := by positivity
  rw [abs_div, abs_of_pos hpow]
  constructor
  · rw [le_div_iff₀ hpow, one_mul, hcast]
    exact hlo
  · rw [div_lt_iff₀ hpow, hcast]
    calc |q0| < 10 ^ (flog10 |q0| + 1) := hhi
      _ = 10 ^ flog10 |q0| * 10 := by
          rw [zpow_add₀ (by norm_num), zpow_one]
      _ = 10 * 10 ^ flog10 |q0| := by ring

/-- After `normalize`, a finite nonzero mantissa sitting under a NONZERO
exponent is in the band `[1, 10)`.  (At exponent 0 no band is guaranteed.) -/
theorem BigFloatU.normalize_band (m : F64) (e : ℕ) (q : ℚ)
    (hm : (BigFloatU.normalize ⟨m, e⟩).mantissa = .fin q) (hq : q ≠ 0)
    (he : (BigFloatU.normalize ⟨m, e⟩).exponent ≠ 0) : 1 ≤ |q| ∧ |q| < 10 := by
  cases m with
  | fin q0 =>
    by_cases h0 : q0 = 0
    · simp only [BigFloatU.normalize, h0, if_true] at hm
      exact absurd (F64.fin.inj hm).symm (by simpa [h0] using hq)
    · by_cases hez : e = 0
      · by_cases h10 : 10 ≤ |q0|
        · simp only [BigFloatU.normalize, h0, hez, h10, if_true, if_false] at hm
          obtain ⟨hlo, hhi⟩ := band_after_div q0 h0 (by linarith)
          have hq' := (F64.fin.inj hm)
          rw [← hq']
          exact ⟨hlo, hhi⟩
        · simp only [BigFloatU.normalize, h0, hez, h10, if_true, if_false] at he
          exact absurd rfl he
      · by_cases h10 : 10 ≤ |q0|
        · simp only [BigFloatU.normalize, h0, hez, h10, if_true, if_false] at hm
          obtain ⟨hlo, hhi⟩ := band_after_div q0 h0 (by linarith)
          have hq' := (F64.fin.inj hm)
          rw [← hq']
          exact ⟨hlo, hhi⟩
        · by_cases hlt : |q0| < 1
          · simp only [BigFloatU.normalize, h0, hez, h10, hlt, if_true, if_false] at he
            exact absurd rfl he
          · simp only [BigFloatU.normalize, h0, hez, h10, hlt, if_true, if_false] at hm
            have hq' := (F64.fin.inj hm)
            rw [← hq']
            exact ⟨by linarith [not_lt.mp hlt], by linarith [not_le.mp h10]⟩
  | inf => exact absurd (by simpa only [BigFloatU.normalize] using hm) (by simp)
  | neginf => exact absurd (by simpa only [BigFloatU.normalize] using hm) (by simp)
  | nan => exact absurd (by simpa only [BigFloatU.normalize] using hm) (by simp)

/-- C1 counterexample: the public constructor `BigFloat::from_f64` applied to
`0.5` returns the value `{mantissa: 0.5, exponent: 0}` — a finite nonzero
value with a plain exponent whose mantissa violates `1 ≤ |mantissa|`
(src/bigfloat.rs lines 46-52 deliberately keep `|value| < 1` unnormalized at
exponent 0). -/
theorem claim_C1_counterexample :
    BigFloatU.from_f64 (.fin (1/2)) = ⟨.fin (1/2), 0⟩ ∧
    ¬ (1 ≤ |(1/2 : ℚ)|) := by
  have habs : |(1/2 : ℚ)| = 1/2 := abs_of_pos (by norm_num)
  constructor
  · simp only [BigFloatU.from_f64, habs]
    norm_num
  · rw [habs]
    norm_num

/-- C1 amended: for every value returned by the constructors
`BigFloat::new` (hence `normalize`) or `BigFloat::from_f64` whose mantissa is
finite and nonzero and whose exponent is NONZERO, `1 ≤ |mantissa| < 10`;
when the exponent is 0 the mantissa may lie outside the band (values below 1
are stored denormalized at exponent 0, and `normalize` can also fold a large
mantissa back to exponent 0). -/
theorem claim_C1_amended (m : F64) (e : ℕ) (q : ℚ) :
    ((BigFloatU.new m e).mantissa = .fin q → q ≠ 0 →
      (BigFloatU.new m e).exponent ≠ 0 → 1 ≤ |q| ∧ |q| < 10) ∧
    ((BigFloatU.from_f64 m).mantissa = .fin q → q ≠ 0 →
      (BigFloatU.from_f64 m).exponent ≠ 0 → 1 ≤ |q| ∧ |q| < 10) := by
  constructor
  · exact fun hm hq he => BigFloatU.normalize_band m e q hm hq he
  · intro hm hq he
    cases m with
    | fin q0 =>
      by_cases h0 : q0 = 0
      · simp only [BigFloatU.from_f64, h0, if_true] at he
        exact absurd rfl he
      · by_cases hlt : |q0| < 1
        · simp only [BigFloatU.from_f64, h0, hlt, if_true, if_false] at he
          exact absurd rfl he
        · simp only [BigFloatU.from_f64, h0, hlt, if_true, if_false] at hm
          have hapos : 0 < |q0| := abs_pos.mpr h0
          obtain ⟨hlo, hhi⟩ := flog10_spec |q0| hapos
          have hpow : (0 : ℚ) < 10 ^ flog10 |q0| := by positivity
          have hmm1 : 1 ≤ |q0| / 10 ^ flog10 |q0| := by
            rw [le_div_iff₀ hpow, one_mul]; exact hlo
          have hmm2 : |q0| / 10 ^ flog10 |q0| < 10 := by
            rw [div_lt_iff₀ hpow]
            calc |q0| < 10 ^ (flog10 |q0| + 1) := hhi
              _ = 10 * 10 ^ flog10 |q0| := by
                  rw [zpow_add₀ (by norm_num), zpow_one]; ring
          have habs : |q| = |q0| / 10 ^ flog10 |q0| := by
            have := (F64.fin.inj hm)
            rw [← this]
            by_cases hneg : q0 < 0
            · simp only [hneg, if_true, abs_neg]
              exact abs_of_pos (by positivity)
            · simp only [hneg, if_false]
              exact abs_of_pos (by positivity)
          rw [habs]
          exact ⟨hmm1, hmm2⟩
    | inf => exact absurd (by simpa only [BigFloatU.from_f64] using hm) (by simp)
    | neginf => exact absurd (by simpa only [BigFloatU.from_f64] using hm) (by simp)
    | nan => exact absurd (by simpa only [BigFloatU.from_f64] using hm) (by simp)

/-- C1 amended, witness: `BigFloat::new(15.0, 2)` yields mantissa `1.5`,
exponent `3`, and the band `1 ≤ |1.5| < 10` follows from the amended claim at
that input. -/
theorem claim_C1_witness : 1 ≤ |(3/2 : ℚ)| ∧ |(3/2 : ℚ)| < 10 := by
  have hflog : flog10 |(15 : ℚ)| = 1 := by
    rw [show |(15 : ℚ)| = 15 by norm_num]
    exact flog10_eq_of 15 1 (by norm_num) (by norm_num) (by norm_num)
  have hnew : BigFloatU.new (.fin 15) 2 = ⟨.fin (3/2), 3⟩ := by
    simp only [BigFloatU.new, BigFloatU.normalize, hflog]
    norm_num
  exact (claim_C1_amended (.fin 15) 2 (3/2)).1
    (by rw [hnew]) (by norm_num) (by rw [hnew]; norm_num)

/-! ## The enum-exponent revision (`src/arithmetic.rs`, `src/traits.rs`,
`src/convert.rs`)

These files import `Exponent { Long(i64), BigFloat(Box<BigFloat>) }` from
`bigfloat.rs`, but that revision of `bigfloat.rs` is not in the sources.  The
struct and the operations written in the three present files are embedded
directly; the missing constructor/normalizer/`from_f64` are modelled from the
specification (§4.1) and marked `Modelled from the spec`. -/

/-- The recursive exponent: `Exponent::Long(i64)` or
`Exponent::BigFloat(Box<BigFloat>)`.  The boxed `BigFloat`'s two fields are
inlined into the `big` constructor to avoid mutual induction. -/
inductive Exponent where
  | long (e : ℤ)
  | big (m : F64) (ex : Exponent)
deriving DecidableEq, Repr

/-- The enum-revision `BigFloat { mantissa: f64, exponent: Exponent }`. -/
structure BigFloat where
  mantissa : F64
  exponent : Exponent
deriving DecidableEq, Repr

/-- The boxed `BigFloat` held by `Exponent::BigFloat`. -/
def Exponent.nested (b : BigFloat) : Exponent := .big b.mantissa b.exponent

/-- `i64::MIN`. -/
def i64Min : ℤ := -(2 ^ 63)

/-- `i64::MAX`. -/
def i64Max : ℤ := 2 ^ 63 - 1

/-- `i64::checked_add`. -/
def i64CheckedAdd (a b : ℤ) : Option ℤ :=
  if i64Min ≤ a + b ∧ a + b ≤ i64Max then some (a + b) else none

/-- `i64::checked_sub`. -/
def i64CheckedSub (a b : ℤ) : Option ℤ :=
  if i64Min ≤ a - b ∧ a - b ≤ i64Max then some (a - b) else none

/-- `i64::cmp` (`std::cmp::Ord` on integers). -/
def intCmp (a b : ℤ) : Ordering :=
  if a < b then .lt else if a = b then .eq else .gt

namespace BigFloat

/-- `BigFloat::is_zero` (src/arithmetic.rs lines 89-91). -/
def isZero (x : BigFloat) : Bool := x.mantissa.isZero

/-- `BigFloat::is_finite` (src/arithmetic.rs lines 93-95). -/
def isFinite (x : BigFloat) : Bool := x.mantissa.isFinite

/-- `BigFloat::exponent_as_i64` (src/arithmetic.rs lines 97-102). -/
def exponentAsI64 (x : BigFloat) : Option ℤ :=
  match x.exponent with
  | .long e => some e
  | .big _ _ => none

/-- `BigFloat::compare_exponents` (src/arithmetic.rs lines 104-114):
`Long` vs `Long` as integers, any `Long` below any `BigFloat`, and
`BigFloat` vs `BigFloat` stubbed to `Equal` (the source's TODO). -/
def compareExponents (x y : BigFloat) : Ordering :=
  match x.exponent, y.exponent with
  | .long a, .long b => intCmp a b
  | .long _, .big _ _ => .lt
  | .big _ _, .long _ => .gt
  | .big _ _, .big _ _ => .eq

/-- Modelled from the spec: the enum revision's `BigFloat::normalize` is not
in the sources (only the `u128` revision's is).  Following §4.1: zero,
NaN and infinite mantissas are left untouched (rule 1); otherwise, for a
`Long` exponent, the mantissa is scaled into `[1, 10)` and the exponent
adjusted by `⌊log10 |mantissa|⌋` in one batch (rules 2-3); if the adjusted
exponent leaves the `i64` range the exponent is promoted to `Nested`
(rule 4), with the promoted value modelled as the exact decomposition of
`exponent + adjustment` (no claim exercises this branch; the general
recursive ScaledValue addition of §4.1 rule 4 would make `normalize` and
`add` mutually recursive).  A value that already carries a `Nested` exponent
is returned unchanged (`new` is never called with one). -/
def normalize (x : BigFloat) : BigFloat :=
  match x.mantissa, x.exponent with
  | .fin q, .long e =>
    if q = 0 then x
    else
      let k := flog10 |q|
      if k = 0 then x
      else if i64Min ≤ e + k ∧ e + k ≤ i64Max then
        ⟨.fin (q / 10 ^ k), .long (e + k)⟩
      else
        ⟨.fin (q / 10 ^ k),
          .big (.fin (((e + k : ℤ) : ℚ) / 10 ^ flog10 |((e + k : ℤ) : ℚ)|))
               (.long (flog10 |((e + k : ℤ) : ℚ)|))⟩
  | _, _ => x

/-- Modelled from the spec: the enum revision's `BigFloat::new(mantissa: f64,
exponent: i64)` (the constructor invoked throughout src/arithmetic.rs and
src/convert.rs): build with a `Long` exponent, then normalize. -/
def new (m : F64) (e : ℤ) : BigFloat := normalize ⟨m, .long e⟩

/-- Modelled from the spec: the enum revision's `BigFloat::from_f64`
(`from_native`, §4.1): zero, NaN and infinities map to sentinel forms with
exponent `Long 0`; a finite nonzero double is decomposed via `log10` into a
mantissa in `[1, 10)` and a (possibly negative) `Long` exponent. -/
def from_f64 (v : F64) : BigFloat :=
  match v with
  | .fin q =>
    if q = 0 then ⟨.fin 0, .long 0⟩
    else ⟨.fin (q / 10 ^ flog10 |q|), .long (flog10 |q|)⟩
  | _ => ⟨v, .long 0⟩

end BigFloat

namespace BigFloat

/-- The `Ordering::Greater` branch of `Add::add` (src/arithmetic.rs lines
147-163): `a` has the larger exponent.  When both exponents are `Long` and
the difference exceeds 15 the smaller operand is dropped; otherwise its
mantissa is scaled down by `10^Δ`, added, and the sum renormalized at `a`'s
exponent.  If either exponent is `Nested`, `a` is returned unchanged. -/
def addGreater (a b : BigFloat) : BigFloat :=
  match a.exponentAsI64, b.exponentAsI64 with
  | some selfExp, some otherExp =>
    let expDiff := selfExp - otherExp
    if 15 < expDiff then a
    else
      let scaleFactor : F64 := .fin (10 ^ expDiff)
      let scaledOther := b.mantissa.div scaleFactor
      let newMantissa := a.mantissa.add scaledOther
      new newMantissa selfExp
  | _, _ => a

/-- `Add::add for BigFloat` (src/arithmetic.rs lines 117-170).  The
`Ordering::Less` arm of the source re-invokes `other.add(self)`; since both
operands there are nonzero and finite and `compare_exponents` is
antisymmetric on the pair, that call lands in the `Greater` arm, so it is
embedded directly as `addGreater b a`. -/
def add (a b : BigFloat) : BigFloat :=
  if a.isZero then b
  else if b.isZero then a
  else if ¬ a.isFinite ∨ ¬ b.isFinite then
    from_f64 (a.mantissa.add b.mantissa)
  else
    match a.compareExponents b with
    | .eq =>
      let newMantissa := a.mantissa.add b.mantissa
      match a.exponentAsI64 with
      | some e => new newMantissa e
      | none => ⟨newMantissa, a.exponent⟩
    | .gt => addGreater a b
    | .lt => addGreater b a

/-- `Sub::sub for BigFloat` (src/arithmetic.rs lines 172-182): addition of
the sign-flipped right operand. -/
def sub (a b : BigFloat) : BigFloat :=
  add a ⟨b.mantissa.neg, b.exponent⟩

/-- `Mul::mul for BigFloat` (src/arithmetic.rs lines 184-220): zero check,
then non-finite check, then mantissa product; `Long + Long` exponents via
`checked_add`, promoting to a `Nested` exponent on overflow by adding the
two exponents as `BigFloat`s; any `Nested` operand exponent falls into the
source's TODO arm, which discards both exponents (`new(new_mantissa, 0)`). -/
def mul (a b : BigFloat) : BigFloat :=
  if a.isZero ∨ b.isZero then from_f64 (.fin 0)
  else if ¬ a.isFinite ∨ ¬ b.isFinite then
    from_f64 (a.mantissa.mul b.mantissa)
  else
    let newMantissa := a.mantissa.mul b.mantissa
    match a.exponent, b.exponent with
    | .long exp1, .long exp2 =>
      match i64CheckedAdd exp1 exp2 with
      | some newExp => new newMantissa newExp
      | none =>
        let bigExp1 := new (.fin (exp1 : ℚ)) 0
        let bigExp2 := new (.fin (exp2 : ℚ)) 0
        let resultExp := add bigExp1 bigExp2
        ⟨newMantissa, .nested resultExp⟩
    | _, _ => new newMantissa 0

/-- `Div::div for BigFloat` (src/arithmetic.rs lines 222-262): a zero
divisor yields `from_f64(f64::INFINITY)` (before any look at the dividend),
then a zero dividend yields canonical zero; `Long - Long` exponents via
`checked_sub` with the same promotion shape as `mul`; `Nested` operand
exponents fall into the TODO arm discarding both exponents. -/
def div (a b : BigFloat) : BigFloat :=
  if b.isZero then from_f64 .inf
  else if a.isZero then from_f64 (.fin 0)
  else if ¬ a.isFinite ∨ ¬ b.isFinite then
    from_f64 (a.mantissa.div b.mantissa)
  else
    let newMantissa := a.mantissa.div b.mantissa
    match a.exponent, b.exponent with
    | .long exp1, .long exp2 =>
      match i64CheckedSub exp1 exp2 with
      | some newExp => new newMantissa newExp
      | none =>
        let bigExp1 := new (.fin (exp1 : ℚ)) 0
        let bigExp2 := new (.fin (exp2 : ℚ)) 0
        let resultExp := sub bigExp1 bigExp2
        ⟨newMantissa, .nested resultExp⟩
    | _, _ => new newMantissa 0

/-- `PartialOrd::partial_cmp for BigFloat` (src/traits.rs lines 4-67). -/
def partialCmp (a b : BigFloat) : Option Ordering :=
  if a.mantissa.isNan ∨ b.mantissa.isNan then none
  else if a.mantissa.isInfinite ∨ b.mantissa.isInfinite then
    a.mantissa.partialCmp b.mantissa
  else if a.isZero ∧ b.isZero then some .eq
  else if a.isZero then some (if b.mantissa.gtZero then .lt else .gt)
  else if b.isZero then some (if a.mantissa.gtZero then .gt else .lt)
  else
    let selfSign := a.mantissa.isSignPositive
    let otherSign := b.mantissa.isSignPositive
    if selfSign ∧ ¬ otherSign then some .gt
    else if ¬ selfSign ∧ otherSign then some .lt
    else
      match a.compareExponents b with
      | .eq =>
        if selfSign then a.mantissa.partialCmp b.mantissa
        else b.mantissa.partialCmp a.mantissa
      | .gt => some (if selfSign then .gt else .lt)
      | .lt => some (if selfSign then .lt else .gt)

/-- `BigFloat::to_f64` (src/convert.rs lines 135-146). -/
def to_f64 (x : BigFloat) : Option F64 :=
  match x.exponent with
  | .long e =>
    if 308 < e ∨ e < -324 then none
    else some (x.mantissa.mul (.fin (10 ^ e)))
  | .big _ _ => none

/-- `BigFloat::to_f64_saturating` (src/convert.rs lines 148-163). -/
def to_f64_saturating (x : BigFloat) : F64 :=
  match x.exponent with
  | .long e =>
    if 308 < e then (if x.mantissa.nonneg then .inf else .neginf)
    else if e < -324 then .fin 0
    else x.mantissa.mul (.fin (10 ^ e))
  | .big _ _ => if x.mantissa.nonneg then .inf else .neginf

end BigFloat

/-- C10: multiplication checks for a zero operand before its non-finite
check (src/arithmetic.rs lines 188-190), so a zero times anything — NaN and
infinities included — is canonical zero `{mantissa: 0, exponent: Long 0}`. -/
theorem claim_C10 (a b : BigFloat) (h : a.isZero = true ∨ b.isZero = true) :
    BigFloat.mul a b = ⟨.fin 0, .long 0⟩ := by
  rw [BigFloat.mul, if_pos h]
  simp [BigFloat.from_f64]

/-- C10 witness: canonical zero times a NaN value is canonical zero, not
NaN. -/
theorem claim_C10_witness :
    BigFloat.mul ⟨.fin 0, .long 0⟩ ⟨.nan, .long 0⟩ = ⟨.fin 0, .long 0⟩ :=
  claim_C10 ⟨.fin 0, .long 0⟩ ⟨.nan, .long 0⟩
    (Or.inl (by simp [BigFloat.isZero, F64.isZero]))

/-- C8: adding a zero operand returns the other operand unchanged
(src/arithmetic.rs lines 121-126).  The value `0` of the claim is canonical
zero; for the case where `x` is itself zero the data-model invariant of §3
(`mantissa == 0` implies canonical zero) is assumed, since `x + 0` then
returns the zero OPERAND, which is only `x` itself when `x` is canonical. -/
theorem claim_C8 (x : BigFloat) (hfin : x.isFinite = true)
    (hcanon : x.isZero = true → x = ⟨.fin 0, .long 0⟩) :
    BigFloat.add x ⟨.fin 0, .long 0⟩ = x ∧
    BigFloat.add ⟨.fin 0, .long 0⟩ x = x := by
  have hz0 : (⟨.fin 0, .long 0⟩ : BigFloat).isZero = true := by
    simp [BigFloat.isZero, F64.isZero]
  by_cases hz : x.isZero = true
  · rw [hcanon hz]
    constructor <;> rw [BigFloat.add, if_pos hz0]
  · constructor
    · rw [BigFloat.add, if_neg (by simp [hz]), if_pos hz0]
    · rw [BigFloat.add, if_pos hz0]

/-- C8 witness: `3 + 0 = 3` and `0 + 3 = 3` for the value `3 × 10^0`. -/
theorem claim_C8_witness :
    BigFloat.add ⟨.fin 3, .long 0⟩ ⟨.fin 0, .long 0⟩ = ⟨.fin 3, .long 0⟩ ∧
    BigFloat.add ⟨.fin 0, .long 0⟩ ⟨.fin 3, .long 0⟩ = ⟨.fin 3, .long 0⟩ :=
  claim_C8 ⟨.fin 3, .long 0⟩ (by simp [BigFloat.isFinite, F64.isFinite])
    (fun h => absurd h (by simp [BigFloat.isZero, F64.isZero]))

/-- C3 counterexample: dividing `-1` by zero returns POSITIVE infinity
(src/arithmetic.rs lines 226-228 return `from_f64(f64::INFINITY)`
unconditionally), not an infinity carrying the dividend's negative sign. -/
theorem claim_C3_counterexample :
    BigFloat.div ⟨.fin (-1), .long 0⟩ ⟨.fin 0, .long 0⟩ = ⟨.inf, .long 0⟩ ∧
    F64.inf ≠ F64.neginf ∧ ((-1 : ℚ) < 0) := by
  refine ⟨?_, by simp, by norm_num⟩
  rw [BigFloat.div, if_pos (by simp [BigFloat.isZero, F64.isZero])]
  simp [BigFloat.from_f64]

/-- C3 amended: `x / 0` returns positive infinity `{∞, Long 0}` for EVERY
`x` (the sign of `x` is never consulted, and `0 / 0` also gives `+∞` since
the divisor check runs first); `0 / x` returns canonical zero for every
nonzero `x`. -/
theorem claim_C3_amended (x y : BigFloat) :
    (y.isZero = true → BigFloat.div x y = ⟨.inf, .long 0⟩) ∧
    (x.isZero = true → y.isZero = false →
      BigFloat.div x y = ⟨.fin 0, .long 0⟩) := by
  constructor
  · intro hy
    rw [BigFloat.div, if_pos hy]
    simp [BigFloat.from_f64]
  · intro hx hy
    rw [BigFloat.div, if_neg (by simp [hy]), if_pos hx]
    simp [BigFloat.from_f64]

/-- C3 amended, witness: `(-2 × 10^3) / 0 = +∞` and `0 / (5 × 10^0) = 0`. -/
theorem claim_C3_witness :
    BigFloat.div ⟨.fin (-2), .long 3⟩ ⟨.fin 0, .long 0⟩ = ⟨.inf, .long 0⟩ ∧
    BigFloat.div ⟨.fin 0, .long 0⟩ ⟨.fin 5, .long 0⟩ = ⟨.fin 0, .long 0⟩ :=
  ⟨(claim_C3_amended ⟨.fin (-2), .long 3⟩ ⟨.fin 0, .long 0⟩).1
      (by simp [BigFloat.isZero, F64.isZero]),
   (claim_C3_amended ⟨.fin 0, .long 0⟩ ⟨.fin 5, .long 0⟩).2
      (by simp [BigFloat.isZero, F64.isZero])
      (by simp [BigFloat.isZero, F64.isZero])⟩

theorem flog10_eq_zero (q : ℚ) (h1 : 1 ≤ q) (h2 : q < 10) : flog10 q = 0 :=
  flog10_eq_of q 0 (by linarith) (by simpa using h1) (by simpa using h2)

/-- A mantissa already in the band `[1, 10)` passes through `new`
untouched (no claim-relevant renormalization). -/
theorem BigFloat.new_band_id (q : ℚ) (e : ℤ) (h1 : 1 ≤ |q|) (h2 : |q| < 10) :
    BigFloat.new (.fin q) e = ⟨.fin q, .long e⟩ := by
  have hq0 : q ≠ 0 := by
    intro h
    rw [h, abs_zero] at h1
    linarith
  have hk : flog10 |q| = 0 := flog10_eq_zero _ h1 h2
  simp only [BigFloat.new, BigFloat.normalize, hk]
  rw [if_neg hq0]
  simp

/-- C5: when an operand of multiplication carries a `Nested` exponent, the
source's TODO arm (src/arithmetic.rs lines 214-217) runs
`BigFloat::new(new_mantissa, 0)`, DISCARDING both exponents instead of
recursively adding them as ScaledValues: `(1 × 10^(1e100)) * (2 × 10^1)`
evaluates to plain `2`. -/
theorem claim_C5 :
    BigFloat.mul ⟨.fin 1, .big (.fin 1) (.long 100)⟩ ⟨.fin 2, .long 1⟩
      = ⟨.fin 2, .long 0⟩ := by
  rw [BigFloat.mul, if_neg (by simp [BigFloat.isZero, F64.isZero]),
      if_neg (by simp [BigFloat.isFinite, F64.isFinite])]
  show BigFloat.new ((F64.fin 1).mul (.fin 2)) 0 = ⟨.fin 2, .long 0⟩
  rw [show (F64.fin 1).mul (.fin 2) = .fin 2 by simp [F64.mul]]
  exact BigFloat.new_band_id 2 0 (by norm_num) (by norm_num)

/-- C6: `compare_exponents` stubs `Nested` vs `Nested` to `Equal`
(the TODO at src/arithmetic.rs lines 109-112), so the distinct values
`1 × 10^(1e100)` and `1 × 10^(2e100)` compare as `Equal` while `==`
(structural equality) denies it: none of `a < b`, `a == b`, `a > b` holds,
refuting trichotomy; the recursive `Nested` comparison the claim describes
is unimplemented. -/
theorem claim_C6 :
    BigFloat.partialCmp ⟨.fin 1, .big (.fin 1) (.long 100)⟩
        ⟨.fin 1, .big (.fin 2) (.long 100)⟩ = some .eq ∧
    (⟨.fin 1, .big (.fin 1) (.long 100)⟩ : BigFloat) ≠
      ⟨.fin 1, .big (.fin 2) (.long 100)⟩ := by
  constructor
  · simp [BigFloat.partialCmp, BigFloat.compareExponents, BigFloat.isZero,
      F64.isNan, F64.isInfinite, F64.isZero, F64.isSignPositive,
      F64.partialCmp]
  · intro h
    have h2 := congrArg BigFloat.exponent h
    simp only at h2
    have h3 := (Exponent.big.inj h2).1
    exact absurd (F64.fin.inj h3) (by norm_num)

/-- C9: `to_f64` (src/convert.rs lines 135-146) returns `None` exactly for a
`Nested` exponent or a `Long` exponent outside `[-324, 308]`, and otherwise
the mantissa times `10^exponent`; `to_f64_saturating` (lines 148-163) always
returns: signed infinity by the mantissa's sign (the `>= 0.0` test) when the
exponent is above 308 or `Nested`, zero when below `-324`, and the scaled
mantissa otherwise. -/
theorem claim_C9 (x : BigFloat) :
    (x.to_f64 = none ↔
      (∃ m ex, x.exponent = .big m ex) ∨
      (∃ e, x.exponent = .long e ∧ (308 < e ∨ e < -324))) ∧
    (∀ e : ℤ, x.exponent = .long e → -324 ≤ e → e ≤ 308 →
      x.to_f64 = some (x.mantissa.mul (.fin (10 ^ e)))) ∧
    (∀ e : ℤ, x.exponent = .long e → 308 < e →
      x.to_f64_saturating = (if x.mantissa.nonneg then .inf else .neginf)) ∧
    (∀ e : ℤ, x.exponent = .long e → e < -324 →
      x.to_f64_saturating = .fin 0) ∧
    (∀ e : ℤ, x.exponent = .long e → -324 ≤ e → e ≤ 308 →
      x.to_f64_saturating = x.mantissa.mul (.fin (10 ^ e))) ∧
    ((∃ m ex, x.exponent = .big m ex) →
      x.to_f64_saturating = (if x.mantissa.nonneg then .inf else .neginf)) := by
  rcases x with ⟨m, ex⟩
  cases ex with
  | long e =>
    refine ⟨?_, ?_, ?_, ?_, ?_, ?_⟩
    · constructor
      · intro h
        simp only [BigFloat.to_f64] at h
        by_cases hr : 308 < e ∨ e < -324
        · exact Or.inr ⟨e, rfl, hr⟩
        · rw [if_neg hr] at h
          exact absurd h (by simp)
      · rintro (⟨m', ex', h⟩ | ⟨e', he', hr⟩)
        · exact absurd h (by simp)
        · have : e' = e := by
            have := (Exponent.long.inj he').symm
            omega
          subst this
          simp only [BigFloat.to_f64]
          rw [if_pos hr]
    · intro e' he' h1 h2
      have : e' = e := by
        have := (Exponent.long.inj he').symm
        omega
      subst this
      simp only [BigFloat.to_f64]
      rw [if_neg (by omega)]
    · intro e' he' h1
      have : e' = e := by
        have := (Exponent.long.inj he').symm
        omega
      subst this
      simp only [BigFloat.to_f64_saturating]
      rw [if_pos h1]
    · intro e' he' h1
      have : e' = e := by
        have := (Exponent.long.inj he').symm
        omega
      subst this
      simp only [BigFloat.to_f64_saturating]
      rw [if_neg (by omega), if_pos h1]
    · intro e' he' h1 h2
      have : e' = e := by
        have := (Exponent.long.inj he').symm
        omega
      subst this
      simp only [BigFloat.to_f64_saturating]
      rw [if_neg (by omega), if_neg (by omega)]
    · rintro ⟨m', ex', h⟩
      exact absurd h (by simp)
  | big bm bex =>
    refine ⟨?_, ?_, ?_, ?_, ?_, ?_⟩
    · simp [BigFloat.to_f64]
    · intro e' he'
      exact absurd he' (by simp)
    · intro e' he'
      exact absurd he' (by simp)
    · intro e' he'
      exact absurd he' (by simp)
    · intro e' he'
      exact absurd he' (by simp)
    · intro _
      simp [BigFloat.to_f64_saturating]

/-- C9 witness: `1 × 10^400` converts to `None` non-saturating and to `+∞`
saturating. -/
theorem claim_C9_witness :
    (⟨.fin 1, .long 400⟩ : BigFloat).to_f64 = none ∧
    (⟨.fin 1, .long 400⟩ : BigFloat).to_f64_saturating = .inf := by
  constructor
  · exact (claim_C9 ⟨.fin 1, .long 400⟩).1.mpr
      (Or.inr ⟨400, rfl, Or.inl (by norm_num)⟩)
  · rw [(claim_C9 ⟨.fin 1, .long 400⟩).2.2.1 400 rfl (by norm_num)]
    simp [F64.nonneg]

/-- C4: for finite nonzero operands with `Long` exponents `ea > eb`,
addition (src/arithmetic.rs lines 147-163) returns the larger-exponent
operand unchanged when `ea - eb > 15`, and otherwise scales the smaller
mantissa down by `10^(ea-eb)`, adds it to the larger mantissa, and
renormalizes at `ea`. -/
theorem claim_C4 (qa qb : ℚ) (ea eb : ℤ) (ha : qa ≠ 0) (hb : qb ≠ 0)
    (hlt : eb < ea) :
    BigFloat.add ⟨.fin qa, .long ea⟩ ⟨.fin qb, .long eb⟩ =
      if 15 < ea - eb then ⟨.fin qa, .long ea⟩
      else BigFloat.new (.fin (qa + qb / 10 ^ (ea - eb))) ea := by
  rw [BigFloat.add, if_neg (by simp [BigFloat.isZero, F64.isZero, ha]),
      if_neg (by simp [BigFloat.isZero, F64.isZero, hb]),
      if_neg (by simp [BigFloat.isFinite, F64.isFinite])]
  have hcmp : BigFloat.compareExponents ⟨.fin qa, .long ea⟩ ⟨.fin qb, .long eb⟩
      = .gt := by
    simp only [BigFloat.compareExponents, intCmp]
    rw [if_neg (by omega), if_neg (by omega)]
  rw [hcmp]
  rw [BigFloat.addGreater]
  simp only [BigFloat.exponentAsI64]
  have hdiv : (F64.fin qb).div (.fin (10 ^ (ea - eb))) =
      .fin (qb / 10 ^ (ea - eb)) := by
    simp only [F64.div]
    rw [if_neg (zpow_ne_zero (ea - eb) (by norm_num))]
  split_ifs with h
  · rfl
  · rw [hdiv]
    simp only [F64.add]

/-- C4 witness (the spec's scenario): `(1.0, 100) + (1.0, 90)` has exponent
difference `10 ≤ 15`, so the result is mantissa `1.0000000001`, exponent
`Long 100` — not simply `1.0`. -/
theorem claim_C4_witness :
    BigFloat.add ⟨.fin 1, .long 100⟩ ⟨.fin 1, .long 90⟩ =
      ⟨.fin (1.0000000001 : ℚ), .long 100⟩ := by
  have h := claim_C4 1 1 100 90 one_ne_zero one_ne_zero (by norm_num)
  rw [h, if_neg (by norm_num)]
  have hval : (1 : ℚ) + 1 / 10 ^ ((100 : ℤ) - 90) = 1.0000000001 := by
    norm_num
  rw [hval]
  exact BigFloat.new_band_id _ _
    (by rw [abs_of_pos (by norm_num : (0:ℚ) < 1.0000000001)]; norm_num)
    (by rw [abs_of_pos (by norm_num : (0:ℚ) < 1.0000000001)]; norm_num)

theorem flog10_le_of_lt (q : ℚ) (k : ℤ) (hq : 0 < q)
    (h : q < 10 ^ (k + 1)) : flog10 q ≤ k := by
  by_contra hc
  push_neg at hc
  have hmono : (10 : ℚ) ^ (k + 1) ≤ 10 ^ flog10 q :=
    zpow_le_zpow_right₀ (by norm_num) (by omega)
  have hlo := (flog10_spec q hq).1
  linarith

/-- `new` on a finite nonzero mantissa with an in-range adjusted exponent is
the exact one-step decomposition. -/
theorem BigFloat.new_decompose (q : ℚ) (e : ℤ) (hq : q ≠ 0)
    (hlo : i64Min ≤ e + flog10 |q|) (hhi : e + flog10 |q| ≤ i64Max) :
    BigFloat.new (.fin q) e =
      ⟨.fin (q / 10 ^ flog10 |q|), .long (e + flog10 |q|)⟩ := by
  simp only [BigFloat.new, BigFloat.normalize]
  rw [if_neg hq]
  by_cases hk : flog10 |q| = 0
  · rw [if_pos hk, hk]
    simp
  · rw [if_neg hk, if_pos ⟨hlo, hhi⟩]

/-- Value form of `new` for a positive mantissa below 100 and a small
nonnegative exponent: the result is a `Long`-exponent value with the same
exact numeric value. -/
theorem BigFloat.new_value (q : ℚ) (e : ℤ) (h1 : 1 ≤ q) (h2 : q < 100)
    (he : 0 ≤ e) (he' : e ≤ 18) :
    ∃ s t, BigFloat.new (.fin q) e = ⟨.fin s, .long t⟩ ∧
      s * 10 ^ t = q * 10 ^ e := by
  have hq0 : (0 : ℚ) < q := by linarith
  have habs : |q| = q := abs_of_pos hq0
  have hk0 : 0 ≤ flog10 q := flog10_nonneg q h1
  have hk1 : flog10 q ≤ 1 :=
    flog10_le_of_lt q 1 hq0 (by norm_num; linarith)
  have hb : i64Min ≤ e + flog10 |q| ∧ e + flog10 |q| ≤ i64Max := by
    rw [habs]
    constructor
    · have : (-(2 ^ 63) : ℤ) ≤ 0 := by norm_num
      unfold i64Min
      omega
    · have : (20 : ℤ) ≤ 2 ^ 63 - 1 := by norm_num
      unfold i64Max
      omega
  refine ⟨q / 10 ^ flog10 q, e + flog10 q, ?_, ?_⟩
  · rw [BigFloat.new_decompose q e (by linarith) hb.1 hb.2, habs]
  · rw [zpow_add₀ (by norm_num : (10:ℚ) ≠ 0)]
    field_simp
    ring

/-- Decomposing a positive 63-bit integer through
`BigFloat::new(n as f64, 0)`: the result is a banded mantissa and an
exponent in `[0, 18]` whose value is exactly `n`. -/
theorem BigFloat.new_int_decompose (n : ℤ) (h1 : 1 ≤ n)
    (h2 : (n : ℚ) < 10 ^ (19 : ℤ)) :
    ∃ m k, BigFloat.new (.fin (n : ℚ)) 0 = ⟨.fin m, .long k⟩ ∧
      1 ≤ m ∧ m < 10 ∧ 0 ≤ k ∧ k ≤ 18 ∧ m * 10 ^ k = (n : ℚ) := by
  have hq1 : (1 : ℚ) ≤ (n : ℚ) := by exact_mod_cast h1
  have hq0 : (0 : ℚ) < (n : ℚ) := by linarith
  have habs : |(n : ℚ)| = (n : ℚ) := abs_of_pos hq0
  have hk0 : 0 ≤ flog10 (n : ℚ) := flog10_nonneg _ hq1
  have hk18 : flog10 (n : ℚ) ≤ 18 :=
    flog10_le_of_lt _ 18 hq0 (by norm_num at h2 ⊢; linarith)
  obtain ⟨hlo, hhi⟩ := flog10_spec (n : ℚ) hq0
  have hb : i64Min ≤ 0 + flog10 |(n : ℚ)| ∧ 0 + flog10 |(n : ℚ)| ≤ i64Max := by
    rw [habs]
    unfold i64Min i64Max
    constructor
    · have : (-(2 ^ 63) : ℤ) ≤ 0 := by norm_num
      omega
    · have : (18 : ℤ) ≤ 2 ^ 63 - 1 := by norm_num
      omega
  have hpow : (0 : ℚ) < 10 ^ flog10 (n : ℚ) := by positivity
  refine ⟨(n : ℚ) / 10 ^ flog10 (n : ℚ), flog10 (n : ℚ), ?_, ?_, ?_, hk0, hk18, ?_⟩
  · have := BigFloat.new_decompose (n : ℚ) 0 (by linarith) hb.1 hb.2
    rw [habs] at this
    rw [this]
    norm_num
  · rw [le_div_iff₀ hpow, one_mul]
    exact hlo
  · rw [div_lt_iff₀ hpow]
    calc (n : ℚ) < 10 ^ (flog10 (n : ℚ) + 1) := hhi
      _ = 10 * 10 ^ flog10 (n : ℚ) := by
          rw [zpow_add₀ (by norm_num), zpow_one]; ring
  · field_simp

/-- The `Greater` branch of addition on two banded `Long`-exponent values:
the result is a `Long`-exponent value whose value is exact when the exponent
gap is at most 15 and within relative `10^-15` of the true sum when the
smaller operand is dropped. -/
theorem BigFloat.addGreater_approx (m1 m2 : ℚ) (k1 k2 : ℤ)
    (hm1 : 1 ≤ m1) (hm1' : m1 < 10) (hm2 : 1 ≤ m2) (hm2' : m2 < 10)
    (hk2 : 0 ≤ k2) (hlt : k2 < k1) (hk1' : k1 ≤ 18) :
    ∃ s t, BigFloat.addGreater ⟨.fin m1, .long k1⟩ ⟨.fin m2, .long k2⟩
        = ⟨.fin s, .long t⟩ ∧
      |s * 10 ^ t - (m1 * 10 ^ k1 + m2 * 10 ^ k2)| ≤
        (m1 * 10 ^ k1 + m2 * 10 ^ k2) / 10 ^ (15 : ℤ) := by
  have hp1 : (0 : ℚ) < 10 ^ k1 := by positivity
  have hp2 : (0 : ℚ) < 10 ^ k2 := by positivity
  have hSpos : (0 : ℚ) < m1 * 10 ^ k1 + m2 * 10 ^ k2 := by positivity
  simp only [BigFloat.addGreater, BigFloat.exponentAsI64]
  by_cases hd : 15 < k1 - k2
  · refine ⟨m1, k1, by rw [if_pos hd], ?_⟩
    have habs : |m1 * 10 ^ k1 - (m1 * 10 ^ k1 + m2 * 10 ^ k2)|
        = m2 * 10 ^ k2 := by
      rw [show m1 * 10 ^ k1 - (m1 * 10 ^ k1 + m2 * 10 ^ k2)
            = -(m2 * 10 ^ k2) by ring, abs_neg]
      exact abs_of_pos (by positivity)
    rw [habs, le_div_iff₀ (by positivity)]
    have e1 : m2 * 10 ^ k2 * 10 ^ (15 : ℤ) ≤ 10 * 10 ^ k2 * 10 ^ (15 : ℤ) := by
      have hpp : (0 : ℚ) < 10 ^ k2 * 10 ^ (15 : ℤ) := by positivity
      nlinarith
    have e2 : (10 : ℚ) * 10 ^ k2 * 10 ^ (15 : ℤ) = 10 ^ (k2 + 16) := by
      rw [zpow_add₀ (by norm_num : (10 : ℚ) ≠ 0) k2 16,
        show ((10 : ℚ) ^ (16 : ℤ)) = 10 ^ (1 : ℤ) * 10 ^ (15 : ℤ) by
          rw [← zpow_add₀ (by norm_num : (10 : ℚ) ≠ 0)]; norm_num,
        zpow_one]
      ring
    have e3 : (10 : ℚ) ^ (k2 + 16) ≤ 10 ^ k1 :=
      zpow_le_zpow_right₀ (by norm_num) (by omega)
    have e4 : (10 : ℚ) ^ k1 ≤ m1 * 10 ^ k1 := by nlinarith
    linarith
  · rw [if_neg hd]
    have hd1 : 1 ≤ k1 - k2 := by omega
    have hdpow : (10 : ℚ) ^ (k1 - k2) ≠ 0 := zpow_ne_zero _ (by norm_num)
    have hdten : (10 : ℚ) ≤ 10 ^ (k1 - k2) := by
      calc (10 : ℚ) = 10 ^ (1 : ℤ) := (zpow_one 10).symm
        _ ≤ 10 ^ (k1 - k2) := zpow_le_zpow_right₀ (by norm_num) hd1
    have hdivεpos : (0 : ℚ) < m2 / 10 ^ (k1 - k2) := by positivity
    have hdivεlt : m2 / 10 ^ (k1 - k2) < 1 := by
      rw [div_lt_one (by positivity)]
      linarith
    have hstep : (F64.fin m2).div (.fin (10 ^ (k1 - k2)))
        = .fin (m2 / 10 ^ (k1 - k2)) := by
      simp only [F64.div]
      rw [if_neg hdpow]
    rw [hstep]
    simp only [F64.add]
    set u : ℚ := m1 + m2 / 10 ^ (k1 - k2) with hu
    obtain ⟨s, t, heq, hval⟩ := BigFloat.new_value u k1
      (by rw [hu]; linarith) (by rw [hu]; linarith) (by omega) hk1'
    refine ⟨s, t, heq, ?_⟩
    have hsplit : (10 : ℚ) ^ k1 = 10 ^ (k1 - k2) * 10 ^ k2 := by
      rw [← zpow_add₀ (by norm_num : (10 : ℚ) ≠ 0)]
      congr 1
      ring
    have huval : u * 10 ^ k1 = m1 * 10 ^ k1 + m2 * 10 ^ k2 := by
      rw [hu, add_mul, hsplit]
      field_simp
      ring
    rw [hval, huval]
    simp only [sub_self, abs_zero]
    positivity

/-- Addition of two banded positive `Long`-exponent values (exponents in
`[0, 18]`): the result is a `Long`-exponent value within relative `10^-15`
of the exact sum. -/
theorem BigFloat.add_band_approx (m1 m2 : ℚ) (k1 k2 : ℤ)
    (hm1 : 1 ≤ m1) (hm1' : m1 < 10) (hm2 : 1 ≤ m2) (hm2' : m2 < 10)
    (hk1 : 0 ≤ k1) (hk1' : k1 ≤ 18) (hk2 : 0 ≤ k2) (hk2' : k2 ≤ 18) :
    ∃ s t, BigFloat.add ⟨.fin m1, .long k1⟩ ⟨.fin m2, .long k2⟩
        = ⟨.fin s, .long t⟩ ∧
      |s * 10 ^ t - (m1 * 10 ^ k1 + m2 * 10 ^ k2)| ≤
        (m1 * 10 ^ k1 + m2 * 10 ^ k2) / 10 ^ (15 : ℤ) := by
  rw [BigFloat.add,
    if_neg (by simp only [BigFloat.isZero, F64.isZero]; norm_num; linarith),
    if_neg (by simp only [BigFloat.isZero, F64.isZero]; norm_num; linarith),
    if_neg (by simp [BigFloat.isFinite, F64.isFinite])]
  rcases lt_trichotomy k1 k2 with hc | hc | hc
  · have hcmp : BigFloat.compareExponents ⟨.fin m1, .long k1⟩
        ⟨.fin m2, .long k2⟩ = .lt := by
      simp only [BigFloat.compareExponents, intCmp]
      rw [if_pos hc]
    rw [hcmp]
    obtain ⟨s, t, heq, hval⟩ :=
      BigFloat.addGreater_approx m2 m1 k2 k1 hm2 hm2' hm1 hm1' hk1 hc hk2'
    exact ⟨s, t, heq, by rw [show m1 * 10 ^ k1 + m2 * 10 ^ k2
      = m2 * 10 ^ k2 + m1 * 10 ^ k1 by ring]; exact hval⟩
  · subst hc
    have hcmp : BigFloat.compareExponents ⟨.fin m1, .long k1⟩
        ⟨.fin m2, .long k1⟩ = .eq := by
      simp only [BigFloat.compareExponents, intCmp]
      rw [if_neg (by omega)]
      simp
    rw [hcmp]
    simp only [F64.add, BigFloat.exponentAsI64]
    obtain ⟨s, t, heq, hval⟩ := BigFloat.new_value (m1 + m2) k1
      (by linarith) (by linarith) hk1 hk1'
    refine ⟨s, t, heq, ?_⟩
    rw [hval, show (m1 + m2) * 10 ^ k1 = m1 * 10 ^ k1 + m2 * 10 ^ k1 by ring]
    simp only [sub_self, abs_zero]
    positivity
  · have hcmp : BigFloat.compareExponents ⟨.fin m1, .long k1⟩
        ⟨.fin m2, .long k2⟩ = .gt := by
      simp only [BigFloat.compareExponents, intCmp]
      rw [if_neg (by omega), if_neg (by omega)]
    rw [hcmp]
    exact BigFloat.addGreater_approx m1 m2 k1 k2 hm1 hm1' hm2 hm2' hk2 hc hk1'

/-- C2: multiplying two finite nonzero values whose `Long` exponents sum
past `i64::MAX` takes the `checked_add` overflow branch (src/arithmetic.rs
lines 203-212): the result's exponent is `Nested`, holding the sum of the
two exponents recomputed as `BigFloat`s, and the numeric value
`s * 10^t` of that nested exponent is within relative `10^-15` of the true
combined exponent `ea + eb` (exact whenever the two decomposed exponents are
within 15 decades of each other). -/
theorem claim_C2 (qa qb : ℚ) (ea eb : ℤ) (ha : qa ≠ 0) (hb : qb ≠ 0)
    (hea : ea ≤ i64Max) (heb : eb ≤ i64Max) (hsum : i64Max < ea + eb) :
    ∃ s t, (BigFloat.mul ⟨.fin qa, .long ea⟩ ⟨.fin qb, .long eb⟩).exponent
        = .big (.fin s) (.long t) ∧
      |s * 10 ^ t - ((ea : ℚ) + (eb : ℚ))| ≤
        ((ea : ℚ) + (eb : ℚ)) / 10 ^ (15 : ℤ) := by
  have hmax : i64Max = 9223372036854775807 := by norm_num [i64Max]
  have hea1 : 1 ≤ ea := by omega
  have heb1 : 1 ≤ eb := by omega
  have heaQ : ((ea : ℚ)) < 10 ^ (19 : ℤ) := by
    have : ((ea : ℚ)) ≤ 9223372036854775807 := by exact_mod_cast hmax ▸ hea
    calc ((ea : ℚ)) ≤ 9223372036854775807 := this
      _ < 10 ^ (19 : ℤ) := by norm_num
  have hebQ : ((eb : ℚ)) < 10 ^ (19 : ℤ) := by
    have : ((eb : ℚ)) ≤ 9223372036854775807 := by exact_mod_cast hmax ▸ heb
    calc ((eb : ℚ)) ≤ 9223372036854775807 := this
      _ < 10 ^ (19 : ℤ) := by norm_num
  obtain ⟨m1, k1, heq1, hm1, hm1', hk1, hk1', hval1⟩ :=
    BigFloat.new_int_decompose ea hea1 heaQ
  obtain ⟨m2, k2, heq2, hm2, hm2', hk2, hk2', hval2⟩ :=
    BigFloat.new_int_decompose eb heb1 hebQ
  obtain ⟨s, t, heqadd, hvaladd⟩ :=
    BigFloat.add_band_approx m1 m2 k1 k2 hm1 hm1' hm2 hm2' hk1 hk1' hk2 hk2'
  have hnone : i64CheckedAdd ea eb = none := by
    rw [i64CheckedAdd, if_neg]
    intro hcond
    omega
  have hmul : BigFloat.mul ⟨.fin qa, .long ea⟩ ⟨.fin qb, .long eb⟩
      = ⟨(F64.fin qa).mul (.fin qb),
         .nested (BigFloat.add (BigFloat.new (.fin (ea : ℚ)) 0)
                               (BigFloat.new (.fin (eb : ℚ)) 0))⟩ := by
    rw [BigFloat.mul, if_neg (by simp [BigFloat.isZero, F64.isZero, ha, hb]),
      if_neg (by simp [BigFloat.isFinite, F64.isFinite])]
    simp only [hnone]
  refine ⟨s, t, ?_, ?_⟩
  · rw [hmul]
    show Exponent.nested (BigFloat.add (BigFloat.new (.fin (ea : ℚ)) 0)
        (BigFloat.new (.fin (eb : ℚ)) 0)) = _
    rw [heq1, heq2, heqadd]
    rfl
  · rw [show ((ea : ℚ)) + (eb : ℚ) = m1 * 10 ^ k1 + m2 * 10 ^ k2 by
      rw [hval1, hval2]]
    exact hvaladd

/-- C2 witness: `(1 × 10^(2^62)) * (1 × 10^(2^62))` overflows the `i64`
exponent sum and yields a `Nested` exponent approximating `2^63`. -/
theorem claim_C2_witness :
    ∃ s t, (BigFloat.mul ⟨.fin 1, .long (2 ^ 62)⟩
        ⟨.fin 1, .long (2 ^ 62)⟩).exponent = .big (.fin s) (.long t) ∧
      |s * 10 ^ t - (((2 ^ 62 : ℤ) : ℚ) + ((2 ^ 62 : ℤ) : ℚ))| ≤
        (((2 ^ 62 : ℤ) : ℚ) + ((2 ^ 62 : ℤ) : ℚ)) / 10 ^ (15 : ℤ) :=
  claim_C2 1 1 (2 ^ 62) (2 ^ 62) one_ne_zero one_ne_zero
    (by norm_num [i64Max]) (by norm_num [i64Max]) (by norm_num [i64Max])

/-! ## Parsing (`FromStr::from_str for BigFloat`, src/convert.rs lines
38-108)

Strings are modelled as `List Char`.  Rust's `f64::from_str` and
`i64::from_str` are modelled by `parseF64` / `parseI64` over the documented
grammars, with `f64` literal values idealised as exact rationals.  The
source's recursion (the exponent substring is reparsed as a `BigFloat`) is
embedded with a fuel argument; each recursive call strips at least the text
up to and including an `e`, so a fuel of `length + 1` never runs out. -/

/-- Decimal digit accumulation (`'0'` has code point 48). -/
def digitsToNat (cs : List Char) : ℕ :=
  cs.foldl (fun acc c => 10 * acc + (c.toNat - 48)) 0

/-- The optional exponent tail of a float literal: empty, or
`('e'|'E') ('+'|'-')? digit+` consumed entirely. -/
def parseExpPart : List Char → Option ℤ
  | [] => some 0
  | c :: r =>
    if c = 'e' ∨ c = 'E' then
      let signDigits : Bool × List Char :=
        match r with
        | '+' :: r2 => (false, r2)
        | '-' :: r2 => (true, r2)
        | r2 => (false, r2)
      let isNeg := signDigits.1
      let ds := signDigits.2
      if ds.isEmpty ∨ ¬ ds.all Char.isDigit then none
      else some (if isNeg then -(digitsToNat ds : ℤ) else (digitsToNat ds : ℤ))
    else none

/-- The numeric part of Rust's `f64` grammar:
`(digit+ | digit+ '.' digit* | digit* '.' digit+) exp?`, value taken
exactly. -/
def parseDecimal (isNeg : Bool) (cs : List Char) : Option F64 :=
  let intD := cs.takeWhile Char.isDigit
  let r1 := cs.dropWhile Char.isDigit
  match r1 with
  | '.' :: r2 =>
    let fracD := r2.takeWhile Char.isDigit
    let r3 := r2.dropWhile Char.isDigit
    if intD.isEmpty ∧ fracD.isEmpty then none
    else
      match parseExpPart r3 with
      | none => none
      | some e =>
        let mag : ℚ := (digitsToNat intD : ℚ)
            + (digitsToNat fracD : ℚ) / 10 ^ fracD.length
        some (.fin ((if isNeg then -mag else mag) * 10 ^ e))
  | r2 =>
    if intD.isEmpty then none
    else
      match parseExpPart r2 with
      | none => none
      | some e =>
        let mag : ℚ := (digitsToNat intD : ℚ)
        some (.fin ((if isNeg then -mag else mag) * 10 ^ e))

/-- Rust `f64::from_str`: optional sign, then `inf`/`infinity`/`nan`
(case-insensitive) or a decimal number; the whole string must be
consumed. -/
def parseF64 (cs : List Char) : Option F64 :=
  match cs with
  | [] => none
  | _ =>
    let signRest : Bool × List Char :=
      match cs with
      | '+' :: r => (false, r)
      | '-' :: r => (true, r)
      | r => (false, r)
    let isNeg := signRest.1
    let rest := signRest.2
    let lower := rest.map Char.toLower
    if lower = "inf".data ∨ lower = "infinity".data then
      some (if isNeg then .neginf else .inf)
    else if lower = "nan".data then some .nan
    else parseDecimal isNeg rest

/-- Rust `i64::from_str`: optional sign, digits only, whole string
consumed, value within the `i64` range. -/
def parseI64 (cs : List Char) : Option ℤ :=
  let signRest : Bool × List Char :=
    match cs with
    | '+' :: r => (false, r)
    | '-' :: r => (true, r)
    | r => (false, r)
  let isNeg := signRest.1
  let rest := signRest.2
  if rest.isEmpty ∨ ¬ rest.all Char.isDigit then none
  else
    let v : ℤ := if isNeg then -(digitsToNat rest : ℤ) else (digitsToNat rest : ℤ)
    if i64Min ≤ v ∧ v ≤ i64Max then some v else none

/-- Rust `str::trim`. -/
def trimChars (cs : List Char) : List Char :=
  ((cs.dropWhile Char.isWhitespace).reverse.dropWhile Char.isWhitespace).reverse

/-- `FromStr::from_str for BigFloat` (src/convert.rs lines 38-108), with
fuel for the recursive exponent parse.  After trimming: the empty check,
the case-insensitive literal tokens, a whole-string `f64` attempt, then the
split at the first `e`/`E` with an `i64` exponent attempt falling back to a
recursive `BigFloat` exponent parse.  The source's final
`matches('e').count() >= 2` branch is unreachable (any string containing an
`e` was already split above), so it collapses into the trailing error. -/
def parseBigFloat : ℕ → List Char → Except String BigFloat
  | 0, _ => .error "recursion limit exceeded"
  | fuel + 1, cs0 =>
    let cs := trimChars cs0
    if cs.isEmpty then .error "Empty string"
    else
      let lower := cs.map Char.toLower
      if lower = "nan".data then .ok (BigFloat.from_f64 .nan)
      else if lower = "inf".data ∨ lower = "infinity".data ∨ lower = "∞".data then
        .ok (BigFloat.from_f64 .inf)
      else if lower = "-inf".data ∨ lower = "-infinity".data ∨ lower = "-∞".data then
        .ok (BigFloat.from_f64 .neginf)
      else if lower = "0".data ∨ lower = "0.0".data then
        .ok (BigFloat.from_f64 (.fin 0))
      else
        match parseF64 cs with
        | some v => .ok (BigFloat.from_f64 v)
        | none =>
          match cs.findIdx? (fun c => c == 'e' || c == 'E') with
          | some ePos =>
            match parseF64 (cs.take ePos) with
            | none => .error "Invalid mantissa"
            | some m =>
              let expStr := cs.drop (ePos + 1)
              match parseI64 expStr with
              | some e => .ok (BigFloat.new m e)
              | none =>
                match parseBigFloat fuel expStr with
                | .ok expBF => .ok ⟨m, .nested expBF⟩
                | .error _ => .error "Invalid exponent"
          | none => .error "Unable to parse"

/-- Entry point: parse a string as a `BigFloat`. -/
def fromStr (s : String) : Except String BigFloat :=
  parseBigFloat (s.length + 1) s.data

/-- C7: parsing `"1e1e100"` succeeds with mantissa `1.0` and a `Nested`
exponent whose boxed value has mantissa `1.0` and inner exponent
`Long 100`: the whole-string `f64` parse fails, the string splits at the
first `e`, the exponent substring `"1e100"` fails the `i64` parse and
reparses recursively as a `BigFloat`, where it succeeds as a plain `f64`
literal decomposed by `from_f64` into `1.0 × 10^100`. -/
theorem claim_C7 :
    fromStr "1e1e100" = .ok ⟨.fin 1, .big (.fin 1) (.long 100)⟩ := by
  have hfrom : BigFloat.from_f64 (.fin ((1 : ℚ) * 10 ^ (100 : ℤ)))
      = ⟨.fin 1, .long 100⟩ := by
    have habs : |(1 : ℚ) * 10 ^ (100 : ℤ)| = 10 ^ (100 : ℤ) := by
      rw [one_mul]
      exact abs_of_pos (by positivity)
    simp only [BigFloat.from_f64]
    rw [if_neg (by positivity), habs, flog10_zpow, one_mul,
      div_self (by positivity : ((10 : ℚ) ^ (100 : ℤ)) ≠ 0)]
  have hinner : parseBigFloat 7 "1e100".data
      = .ok ⟨.fin 1, .long 100⟩ := by
    have s1 : parseBigFloat 7 "1e100".data
        = .ok (BigFloat.from_f64 (.fin ((1 : ℚ) * 10 ^ (100 : ℤ)))) := rfl
    rw [s1, hfrom]
  have s2 : fromStr "1e1e100" =
      ((match parseBigFloat 7 "1e100".data with
       | .ok expBF => Except.ok
           (BigFloat.mk (.fin ((1 : ℚ) * 10 ^ (0 : ℤ))) (.nested expBF))
       | .error _ => Except.error "Invalid exponent") :
        Except String BigFloat) := rfl
  rw [s2, hinner]
  show (Except.ok ⟨.fin ((1 : ℚ) * 10 ^ (0 : ℤ)),
      .nested ⟨.fin 1, .long 100⟩⟩ : Except String BigFloat) = _
  norm_num [Exponent.nested]
